import Mathlib

/-!
# Verification of the BibTeX statistics analyzer (`get_stats.py`)

A shallow embedding of the core logic of `get_stats.py`:

* `segStep` / `parseBibtexLines` embed `BibtexAnalyzer.parse_bibtex_file`
  (the entry segmenter, minus file I/O: it receives the decoded lines);
* `parseEntryFields` embeds `BibtexAnalyzer.parse_entry_fields`
  (the field regex scan and value cleanup);
* `extractAuthors` embeds `BibtexAnalyzer.extract_authors`;
* `extractVenueInfo` embeds `BibtexAnalyzer.extract_venue_info`;
* `calculateStatistics` embeds `BibtexAnalyzer.calculate_statistics`.

Python strings are modelled as `String` / `List Char`.  Python's `str.strip`,
`str.lower`, `\s`, `\w` and `\d` are Unicode-aware; the model restricts them to
their ASCII behaviour, which is faithful on the bibliography inputs the script
targets (the claims under study only exercise ASCII data).
-/

/-- The whitespace class of Python's `str.strip()` / regex `\s` (ASCII part). -/
def isSpacePy (c : Char) : Bool :=
  c == ' ' || c == '\t' || c == '\n' || c == '\r' || c == '\x0b' || c == '\x0c'

/-- ASCII lowercasing of one character, the ASCII behaviour of Python `str.lower()`. -/
def asciiLower (c : Char) : Char :=
  if 'A' ≤ c ∧ c ≤ 'Z' then Char.ofNat (c.toNat + 32) else c

/-- The word-character class of regex `\w` (ASCII part): letters, digits, underscore. -/
def isWordChar (c : Char) : Bool :=
  c.isAlpha || c.isDigit || c == '_'

/-- Python `str.strip()` on a character list: drop whitespace from both ends. -/
def pyStripL (cs : List Char) : List Char :=
  ((cs.dropWhile isSpacePy).reverse.dropWhile isSpacePy).reverse

/-- Python `str.strip()`. -/
def pyStrip (s : String) : String :=
  ⟨pyStripL s.data⟩

/-- Python `str.rstrip()` on a character list: drop trailing whitespace. -/
def pyRstripL (cs : List Char) : List Char :=
  (cs.reverse.dropWhile isSpacePy).reverse

/-- ASCII lowercasing of a whole string, Python `str.lower()`. -/
def strLower (s : String) : String :=
  ⟨s.data.map asciiLower⟩

/-- One bibliographic record, as built by `parse_bibtex_file`: the dict
`{'type': ..., 'key': ..., 'fields': {...}}` (the transient `raw` list is not
observable downstream and is not modelled).  `fields` is the Python dict as an
insertion-ordered association list with unique keys. -/
structure Entry where
  type : String
  key : String
  fields : List (String × String)
deriving DecidableEq, Repr

/-- `re.search(r'@(\w+)\s*{', line)`, returning the captured type token.
The scan tries each position left to right; backtracking inside `\w+`/`\s*`
can never rescue a failed match (shrinking either leaves a character that the
next pattern atom rejects), so greedy maximal runs are faithful. -/
def findEntryTypeL : List Char → Option (List Char)
  | [] => none
  | c :: rest =>
    if c = '@' then
      let w := rest.takeWhile isWordChar
      if w = [] then findEntryTypeL rest
      else
        match (rest.dropWhile isWordChar).dropWhile isSpacePy with
        | '{' :: _ => some w
        | _ => findEntryTypeL rest
    else findEntryTypeL rest

/-- `re.search(r'{([^,]+)', line)`, returning the captured group: the maximal
run of non-comma characters after the first `{` that is followed by at least
one non-comma character. -/
def extractKeyL : List Char → Option (List Char)
  | [] => none
  | c :: rest =>
    if c = '{' then
      match rest with
      | [] => none
      | c2 :: _ =>
        if c2 = ',' then extractKeyL rest
        else some (rest.takeWhile (fun x => x != ','))
    else extractKeyL rest

/-- Lookahead `(?=\s*\w+\s*=|\s*}\s*$)` of the field regex in
`parse_entry_fields` (with `re.DOTALL`, `$` accepts only trailing whitespace). -/
def fieldLookahead (cs : List Char) : Bool :=
  let t := cs.dropWhile isSpacePy
  (!(t.takeWhile isWordChar).isEmpty &&
      ((t.dropWhile isWordChar).dropWhile isSpacePy).head? == some '=')
  || (t.head? == some '}' && (t.drop 1).all isSpacePy)

/-- Value alternative `{.*?}` (or `".*?"`) of the field regex, entered after
the opening delimiter: the lazy `.*?` stops at the first closing delimiter
after which the lookahead succeeds; a closing delimiter whose lookahead fails
is absorbed by `.*?` and the scan continues.  Returns the value characters
(including the closing delimiter) and the remaining input. -/
def matchDelimValue (close : Char) (acc : List Char) :
    List Char → Option (List Char × List Char)
  | [] => none
  | c :: rest =>
    if c = close ∧ fieldLookahead rest then some ((close :: acc).reverse, rest)
    else matchDelimValue close (c :: acc) rest

/-- Value alternative `.*?` of the field regex: the lazy run grows from the
empty string until the lookahead succeeds at the cut point. -/
def matchBareValue (acc : List Char) : List Char → Option (List Char × List Char)
  | [] => if fieldLookahead [] then some (acc.reverse, []) else none
  | c :: rest =>
    if fieldLookahead (c :: rest) then some (acc.reverse, c :: rest)
    else matchBareValue (c :: acc) rest

/-- One attempt of the field pattern
`(\w+)\s*=\s*({.*?}|".*?"|.*?)(?=\s*\w+\s*=|\s*}\s*$)` at the current
position: name token, `=`, then the ordered value alternatives.  Returns
`(name, raw value, remainder)`. -/
def matchFieldAt (cs : List Char) : Option (List Char × List Char × List Char) :=
  let w := cs.takeWhile isWordChar
  if w = [] then none
  else
    match (cs.dropWhile isWordChar).dropWhile isSpacePy with
    | '=' :: r2 =>
      let r3 := r2.dropWhile isSpacePy
      match r3 with
      | '{' :: r4 =>
        (match matchDelimValue '}' [] r4 with
         | some (v, rem) => some (w, '{' :: v, rem)
         | none =>
           match matchBareValue [] r3 with
           | some (v, rem) => some (w, v, rem)
           | none => none)
      | '"' :: r4 =>
        (match matchDelimValue '"' [] r4 with
         | some (v, rem) => some (w, '"' :: v, rem)
         | none =>
           match matchBareValue [] r3 with
           | some (v, rem) => some (w, v, rem)
           | none => none)
      | _ =>
        (match matchBareValue [] r3 with
         | some (v, rem) => some (w, v, rem)
         | none => none)
    | _ => none

/-- `re.findall` of the field pattern: try each start position left to right;
on a match, emit the two groups and resume after the value (the lookahead is
zero-width).  Every match consumes at least two characters, so fuel equal to
the input length is never exhausted before the input is. -/
def findAllFieldsAux (fuel : Nat) (cs : List Char) :
    List (List Char × List Char) :=
  match fuel with
  | 0 => []
  | fuel + 1 =>
    match cs with
    | [] => []
    | _ :: rest =>
      match matchFieldAt cs with
      | some (w, v, rem) => (w, v) :: findAllFieldsAux fuel rem
      | none => findAllFieldsAux fuel rest

/-- `re.findall(pattern, content, re.DOTALL | re.IGNORECASE)` over the field
pattern.  (`re.IGNORECASE` affects no literal letter of this pattern, and the
character classes `\w`, `\s` are case-closed, so it is a no-op.) -/
def findAllFields (cs : List Char) : List (List Char × List Char) :=
  findAllFieldsAux cs.length cs

/-- The wrapper-stripping step of the value cleanup: `value[1:-1]` when the
value starts and ends with matching braces, or with matching quotes. -/
def unwrapDelim (v : List Char) : List Char :=
  if v.head? = some '{' ∧ v.getLast? = some '}' then (v.drop 1).dropLast
  else if v.head? = some '"' ∧ v.getLast? = some '"' then (v.drop 1).dropLast
  else v

/-- The value cleanup of `parse_entry_fields` on a character list: strip, drop
one layer of matching brace or quote wrapping, drop trailing commas
(`rstrip(',')`), strip again. -/
def cleanFieldValueL (cs : List Char) : List Char :=
  pyStripL (((unwrapDelim (pyStripL cs)).reverse.dropWhile (fun c => c == ',')).reverse)

/-- The value cleanup of `parse_entry_fields` (lines 99–109 of the source). -/
def cleanFieldValue (s : String) : String :=
  ⟨cleanFieldValueL s.data⟩

/-- Python dict assignment `fields[name] = value`: overwrite in place if the
key is present (keeping its position), else append. -/
def dictInsert (fs : List (String × String)) (k v : String) :
    List (String × String) :=
  match fs with
  | [] => [(k, v)]
  | (k', v') :: rest =>
    if k' = k then (k', v) :: rest else (k', v') :: dictInsert rest k v

/-- Python `fields.get(k, dflt)`. -/
def dictGet (fs : List (String × String)) (k : String) (dflt : String) : String :=
  match fs with
  | [] => dflt
  | (k', v) :: rest => if k' = k then v else dictGet rest k dflt

/-- `content[content.find(',') + 1:]`: Python `find` yields `-1` when absent,
so the slice is the whole string in that case. -/
def dropThroughComma (cs : List Char) : List Char :=
  match cs.findIdx? (fun c => c == ',') with
  | some i => cs.drop (i + 1)
  | none => cs

/-- Python `s.split('\n')`: split at every newline, keeping empty pieces. -/
def splitNl : List Char → List (List Char)
  | [] => [[]]
  | c :: rest =>
    match splitNl rest with
    | [] => [[]]
    | piece :: pieces =>
      if c = '\n' then [] :: piece :: pieces
      else (c :: piece) :: pieces

/-- Python `'\n'.join(pieces)`. -/
def joinNl : List (List Char) → List Char
  | [] => []
  | [p] => p
  | p :: ps => p ++ '\n' :: joinNl ps

/-- Python `'\n'.join(lines)` on strings. -/
def joinLines (ls : List String) : String :=
  ⟨joinNl (ls.map String.data)⟩

/-- `BibtexAnalyzer.parse_entry_fields`: drop the `@type{key,` prefix (first
line for multi-line blocks, up to the first comma for single-line blocks),
scan for `field = value` matches, clean each value, and build the dict. -/
def parseEntryFields (entryText : String) : List (String × String) :=
  let lines := splitNl entryText.data
  let content :=
    if lines.length > 1 then joinNl (lines.drop 1)
    else
      match lines.head? with
      | some l => dropThroughComma l
      | none => []
  (findAllFields content).foldl
    (fun fs p =>
      let name := pyStrip (strLower (String.mk p.1))
      let value := cleanFieldValue (String.mk p.2)
      dictInsert fs name value)
    []

/-- The loop state of `parse_bibtex_file`: collected entries, the pending
entry's type and key, the accumulated (stripped) lines, and the `in_entry`
flag. -/
structure SegState where
  entries : List Entry
  curType : String
  curKey : String
  content : List String
  inEntry : Bool
deriving DecidableEq, Repr

/-- The initial loop state of `parse_bibtex_file`. -/
def initSegState : SegState :=
  ⟨[], "", "", [], false⟩

/-- One iteration of the `for line in lines` loop of `parse_bibtex_file`:
strip the line; skip blanks and `%` comments; outside an entry, open (and
possibly immediately close, without field parsing) on the `@type{` pattern;
inside an entry, accumulate and close on the brace heuristic, parsing the
accumulated text into fields. -/
def segStep (st : SegState) (rawLine : String) : SegState :=
  let line := pyStrip rawLine
  if line = "" ∨ line.data.head? = some '%' then st
  else if st.inEntry = false ∧ line.data.contains '@' = true then
    match findEntryTypeL line.data with
    | some w =>
      let ty := strLower (String.mk w)
      let key :=
        match extractKeyL line.data with
        | some k => String.mk k
        | none => "unknown"
      if line.data.contains '}' = true ∧ line.data.count '{' ≤ line.data.count '}' then
        { st with entries := st.entries ++ [⟨ty, key, []⟩],
                  curType := ty, curKey := key, content := [line], inEntry := false }
      else
        { st with curType := ty, curKey := key, content := [line], inEntry := true }
    | none => st
  else if st.inEntry = true then
    let content := st.content ++ [line]
    if line.data.contains '}' = true ∧ line.data.count '{' ≤ line.data.count '}' ∧
        (pyRstripL line.data).getLast? = some '}' then
      { st with
          entries := st.entries ++
            [⟨st.curType, st.curKey, parseEntryFields (joinLines content)⟩],
          content := content, inEntry := false }
    else { st with content := content }
  else st

/-- `BibtexAnalyzer.parse_bibtex_file`, from the decoded lines of one file
(file opening and encoding fallback are external collaborators). -/
def parseBibtexLines (lines : List String) : List Entry :=
  (lines.foldl segStep initSegState).entries

/-- `re.split(r'\sand\s', s, flags=re.IGNORECASE)`: scan left to right; a
whitespace character, `and` (case-insensitive), and a whitespace character
form a separator; the scan resumes after the separator. -/
def splitAndAux (acc : List Char) : List Char → List (List Char)
  | c1 :: c2 :: c3 :: c4 :: c5 :: rest =>
    if isSpacePy c1 ∧ asciiLower c2 = 'a' ∧ asciiLower c3 = 'n' ∧
        asciiLower c4 = 'd' ∧ isSpacePy c5 then
      acc.reverse :: splitAndAux [] rest
    else splitAndAux (c1 :: acc) (c2 :: c3 :: c4 :: c5 :: rest)
  | cs => [acc.reverse ++ cs]

/-- `re.sub(r'\s+', ' ', s)`: collapse each maximal whitespace run to a single
space. -/
def collapseWsL : List Char → List Char
  | [] => []
  | [c] => [if isSpacePy c then ' ' else c]
  | c1 :: c2 :: rest =>
    if isSpacePy c1 ∧ isSpacePy c2 then collapseWsL (c2 :: rest)
    else (if isSpacePy c1 then ' ' else c1) :: collapseWsL (c2 :: rest)

/-- `s.replace('{', '').replace('}', '')`. -/
def removeBracesL (cs : List Char) : List Char :=
  cs.filter (fun c => c != '{' && c != '}')

/-- `BibtexAnalyzer.extract_authors`: split on the `and` separator, then per
fragment strip, collapse whitespace, remove braces, and keep if non-empty. -/
def extractAuthors (authorField : String) : List String :=
  if authorField = "" then []
  else
    (splitAndAux [] authorField.data).foldr
      (fun p acc =>
        let a := collapseWsL (pyStripL p)
        let a := removeBracesL a
        if a = [] then acc else String.mk a :: acc)
      []

/-- Case-insensitive literal-prefix match: `dropPrefixCI pat cs` consumes
`pat` (given in lowercase) from the front of `cs`, comparing lowercased
characters, and returns the remainder on success. -/
def dropPrefixCI : List Char → List Char → Option (List Char)
  | [], cs => some cs
  | _ :: _, [] => none
  | p :: ps, c :: cs => if asciiLower c = p then dropPrefixCI ps cs else none

/-- `re.sub(r'^proceedings of\s*', '', s, flags=re.IGNORECASE)`: drop the
anchored case-insensitive phrase and the following whitespace run, if present. -/
def stripProcL (cs : List Char) : List Char :=
  match dropPrefixCI ("proceedings of".data) cs with
  | some rest => rest.dropWhile isSpacePy
  | none => cs

/-- `re.sub(r'^the\s+', '', s, flags=re.IGNORECASE)`: drop an anchored
case-insensitive `the` followed by at least one whitespace character, and the
whole whitespace run after it. -/
def stripTheL (cs : List Char) : List Char :=
  match cs with
  | c1 :: c2 :: c3 :: c4 :: rest =>
    if asciiLower c1 = 't' ∧ asciiLower c2 = 'h' ∧ asciiLower c3 = 'e' ∧
        isSpacePy c4 then
      rest.dropWhile isSpacePy
    else c1 :: c2 :: c3 :: c4 :: rest
  | cs => cs

/-- Python `a or b` on strings: the empty string is falsy. -/
def pyOr (a b : String) : String :=
  if a = "" then b else a

/-- `BibtexAnalyzer.extract_venue_info`: journal from `journal` falling back
to `journaltitle`, conference from `booktitle` falling back to `conference`;
if non-empty, remove braces and strip the `proceedings of` prefix, and for the
journal only additionally the `the` prefix; finally strip both. -/
def extractVenueInfo (e : Entry) : String × String :=
  let journal := pyOr (dictGet e.fields ("journal") ("")) (dictGet e.fields ("journaltitle") (""))
  let conference := pyOr (dictGet e.fields ("booktitle") ("")) (dictGet e.fields ("conference") (""))
  let journal :=
    if journal ≠ "" then
      String.mk (stripTheL (stripProcL (removeBracesL journal.data)))
    else journal
  let conference :=
    if conference ≠ "" then
      String.mk (stripProcL (removeBracesL conference.data))
    else conference
  (pyStrip journal, pyStrip conference)

/-- `re.search(r'\d{4}', s)`: the first position at which four consecutive
decimal digits occur, returning those four digits (`\d{4}` happily matches
inside a longer digit run). -/
def findFourDigits : List Char → Option (List Char)
  | a :: b :: c :: d :: rest =>
    if a.isDigit ∧ b.isDigit ∧ c.isDigit ∧ d.isDigit then some [a, b, c, d]
    else findFourDigits (b :: c :: d :: rest)
  | _ => none

/-- The statistics dict built by `calculate_statistics`: the total and the
five `Counter`s, each modelled as an insertion-ordered association list. -/
structure Stats where
  total_entries : Nat
  entry_types : List (String × Nat)
  authors : List (String × Nat)
  journals : List (String × Nat)
  conferences : List (String × Nat)
  years : List (String × Nat)
deriving DecidableEq, Repr

/-- `Counter[k] += 1`: bump the count of `k` in place, inserting it with
count `1` when absent (Python `Counter` treats a missing key as `0`). -/
def counterIncr : List (String × Nat) → String → List (String × Nat)
  | [], k => [(k, 1)]
  | (k', n) :: rest, k =>
    if k' = k then (k', n + 1) :: rest else (k', n) :: counterIncr rest k

/-- The body of the `for entry in entries` loop of `calculate_statistics`:
count the entry type; count each extracted author when the `author` field is
non-empty; count non-empty journal and conference names; count the first
four-digit group of a non-empty `year` field. -/
def statsStep (s : Stats) (e : Entry) : Stats :=
  let authorField := dictGet e.fields ("author") ("")
  let jc := extractVenueInfo e
  let year := dictGet e.fields ("year") ("")
  { total_entries := s.total_entries
    entry_types := counterIncr s.entry_types e.type
    authors :=
      if authorField ≠ "" then (extractAuthors authorField).foldl counterIncr s.authors
      else s.authors
    journals := if jc.1 ≠ "" then counterIncr s.journals jc.1 else s.journals
    conferences := if jc.2 ≠ "" then counterIncr s.conferences jc.2 else s.conferences
    years :=
      if year ≠ "" then
        match findFourDigits year.data with
        | some w => counterIncr s.years (String.mk w)
        | none => s.years
      else s.years }

/-- `BibtexAnalyzer.calculate_statistics`: `total_entries` is `len(entries)`;
the five counters are filled by the entry loop. -/
def calculateStatistics (entries : List Entry) : Stats :=
  entries.foldl statsStep
    { total_entries := entries.length, entry_types := [], authors := [],
      journals := [], conferences := [], years := [] }

/-- Lengths of the maximal decimal-digit runs of a string, in order.  Used to
state the spec's "run of exactly four decimal digits". -/
def digitRunsAux (cur : Nat) : List Char → List Nat
  | [] => if cur > 0 then [cur] else []
  | c :: rest =>
    if c.isDigit then digitRunsAux (cur + 1) rest
    else if cur > 0 then cur :: digitRunsAux 0 rest
    else digitRunsAux 0 rest

/-- Whether some maximal digit run of `cs` has length exactly four. -/
def hasExactFourDigitRun (cs : List Char) : Bool :=
  (digitRunsAux 0 cs).any (fun r => r == 4)

/-- Existence of four consecutive decimal digits somewhere in the list, the
specification-level reading of a `\d{4}` search hit. -/
def hasFourWindow (cs : List Char) : Prop :=
  ∃ pre w post, cs = pre ++ w ++ post ∧ w.length = 4 ∧ w.all Char.isDigit = true

/-! ## Helper lemmas -/

theorem stringMk_data (s : String) : String.mk s.data = s := by
  cases s
  rfl

theorem list_length_eq_four {α : Type} {w : List α} (h : w.length = 4) :
    ∃ a b c d, w = [a, b, c, d] := by
  rcases w with _ | ⟨a, _ | ⟨b, _ | ⟨c, _ | ⟨d, _ | ⟨e, w⟩⟩⟩⟩⟩ <;>
    simp_all

theorem dropWhile_head_false {p : Char → Bool} {l : List Char}
    (h : ∀ c, l.head? = some c → p c = false) : l.dropWhile p = l := by
  cases l with
  | nil => rfl
  | cons c rest => simp [List.dropWhile_cons, h c rfl]

theorem extractKeyL_append (a rest : List Char) (h : '{' ∉ a) :
    extractKeyL (a ++ rest) = extractKeyL rest := by
  induction a with
  | nil => rfl
  | cons c a ih =>
    have hc : c ≠ '{' := fun e => h (e ▸ List.mem_cons_self c a)
    have ha : '{' ∉ a := fun hm => h (List.mem_cons_of_mem _ hm)
    simp [extractKeyL, hc, ih ha]

theorem takeWhile_ne_comma_append (b t : List Char) (hb : ',' ∉ b)
    (ht : t = [] ∨ t.head? = some ',') :
    (b ++ t).takeWhile (fun x => x != ',') = b := by
  induction b with
  | nil =>
    rcases ht with h | h
    · simp [h]
    · cases t with
      | nil => simp at h
      | cons c t =>
        simp only [List.head?_cons, Option.some.injEq] at h
        subst h
        simp [List.takeWhile_cons]
  | cons x b ih =>
    have hx : x ≠ ',' := fun e => hb (e ▸ List.mem_cons_self x b)
    have hb' : ',' ∉ b := fun hm => hb (List.mem_cons_of_mem _ hm)
    simp [List.takeWhile_cons, hx, ih hb']

theorem extractKeyL_brace (a b t : List Char) (ha : '{' ∉ a) (hb : b ≠ [])
    (hb2 : ',' ∉ b) (ht : t = [] ∨ t.head? = some ',') :
    extractKeyL (a ++ '{' :: (b ++ t)) = some b := by
  rw [extractKeyL_append a _ ha]
  cases b with
  | nil => exact absurd rfl hb
  | cons x b' =>
    have hx : x ≠ ',' := fun e => hb2 (e ▸ List.mem_cons_self x b')
    have hb' : ',' ∉ b' := fun hm => hb2 (List.mem_cons_of_mem _ hm)
    simp [extractKeyL, hx, takeWhile_ne_comma_append b' t hb' ht]

theorem extractKeyL_trailing_brace (a : List Char) (ha : '{' ∉ a) :
    extractKeyL (a ++ ['{']) = none := by
  rw [extractKeyL_append a _ ha]
  rfl

/-- Sum of the counts of a counter table. -/
def counterTotal (t : List (String × Nat)) : Nat :=
  (t.map Prod.snd).sum

theorem counterTotal_incr (t : List (String × Nat)) (k : String) :
    counterTotal (counterIncr t k) = counterTotal t + 1 := by
  induction t with
  | nil => rfl
  | cons p rest ih =>
    obtain ⟨k', n⟩ := p
    by_cases h : k' = k
    · simp [counterIncr, h, counterTotal]
      omega
    · simp [counterIncr, h, counterTotal] at ih ⊢
      omega

theorem statsStep_total (s : Stats) (e : Entry) :
    (statsStep s e).total_entries = s.total_entries := rfl

theorem statsStep_entry_types (s : Stats) (e : Entry) :
    (statsStep s e).entry_types = counterIncr s.entry_types e.type := rfl

theorem foldl_statsStep_total (es : List Entry) (s : Stats) :
    (es.foldl statsStep s).total_entries = s.total_entries := by
  induction es generalizing s with
  | nil => rfl
  | cons e es ih => rw [List.foldl_cons, ih, statsStep_total]

theorem foldl_statsStep_types_total (es : List Entry) (s : Stats) :
    counterTotal (es.foldl statsStep s).entry_types =
      counterTotal s.entry_types + es.length := by
  induction es generalizing s with
  | nil => simp
  | cons e es ih =>
    rw [List.foldl_cons, ih, statsStep_entry_types, counterTotal_incr,
      List.length_cons]
    omega

theorem counterIncr_pos (t : List (String × Nat)) (k : String)
    (h : ∀ p ∈ t, 1 ≤ p.2) : ∀ p ∈ counterIncr t k, 1 ≤ p.2 := by
  induction t with
  | nil =>
    intro p hp
    simp [counterIncr] at hp
    simp [hp]
  | cons q rest ih =>
    obtain ⟨k', n⟩ := q
    have hq : 1 ≤ n := h (k', n) (List.mem_cons_self _ _)
    have hrest : ∀ p ∈ rest, 1 ≤ p.2 := fun p hp => h p (List.mem_cons_of_mem _ hp)
    intro p hp
    by_cases he : k' = k
    · simp [counterIncr, he] at hp
      rcases hp with hp | hp
      · simp [hp]
      · exact hrest p hp
    · simp [counterIncr, he] at hp
      rcases hp with hp | hp
      · simp [hp]
        exact hq
      · exact ih hrest p hp

theorem foldl_counterIncr_pos (ns : List String) (t : List (String × Nat))
    (h : ∀ p ∈ t, 1 ≤ p.2) : ∀ p ∈ ns.foldl counterIncr t, 1 ≤ p.2 := by
  induction ns generalizing t with
  | nil => exact h
  | cons n ns ih => exact ih _ (counterIncr_pos t n h)

/-- All five counter tables of a statistics value hold only positive counts. -/
def statsPos (s : Stats) : Prop :=
  (∀ p ∈ s.entry_types, 1 ≤ p.2) ∧ (∀ p ∈ s.authors, 1 ≤ p.2) ∧
  (∀ p ∈ s.journals, 1 ≤ p.2) ∧ (∀ p ∈ s.conferences, 1 ≤ p.2) ∧
  (∀ p ∈ s.years, 1 ≤ p.2)

theorem statsStep_pos (s : Stats) (e : Entry) (h : statsPos s) :
    statsPos (statsStep s e) := by
  obtain ⟨h1, h2, h3, h4, h5⟩ := h
  refine ⟨counterIncr_pos _ _ h1, ?_, ?_, ?_, ?_⟩ <;> simp only [statsStep]
  · split
    · exact foldl_counterIncr_pos _ _ h2
    · exact h2
  · split
    · exact counterIncr_pos _ _ h3
    · exact h3
  · split
    · exact counterIncr_pos _ _ h4
    · exact h4
  · split
    · split
      · exact counterIncr_pos _ _ h5
      · exact h5
    · exact h5

theorem foldl_statsStep_pos (es : List Entry) (s : Stats) (h : statsPos s) :
    statsPos (es.foldl statsStep s) := by
  induction es generalizing s with
  | nil => exact h
  | cons e es ih => exact ih _ (statsStep_pos s e h)

theorem calculateStatistics_pos (es : List Entry) :
    statsPos (calculateStatistics es) := by
  unfold calculateStatistics
  exact foldl_statsStep_pos es _ ⟨by simp, by simp, by simp, by simp, by simp⟩

theorem segStep_entries (st : SegState) (l : String) :
    ∃ t, (segStep st l).entries = st.entries ++ t ∧ t.length ≤ 1 := by
  unfold segStep
  by_cases h1 : pyStrip l = "" ∨ (pyStrip l).data.head? = some '%'
  · rw [if_pos h1]
    exact ⟨[], by simp, by simp⟩
  · rw [if_neg h1]
    by_cases h2 : st.inEntry = false ∧ (pyStrip l).data.contains '@' = true
    · rw [if_pos h2]
      cases hf : findEntryTypeL (pyStrip l).data with
      | none => simp only [hf]; exact ⟨[], by simp, by simp⟩
      | some w =>
        simp only [hf]
        by_cases h3 : (pyStrip l).data.contains '}' = true ∧
            List.count '{' (pyStrip l).data ≤ List.count '}' (pyStrip l).data
        · rw [if_pos h3]
          exact ⟨_, rfl, by simp⟩
        · rw [if_neg h3]
          exact ⟨[], by simp, by simp⟩
    · rw [if_neg h2]
      by_cases h4 : st.inEntry = true
      · rw [if_pos h4]
        by_cases h5 : (pyStrip l).data.contains '}' = true ∧
            List.count '{' (pyStrip l).data ≤ List.count '}' (pyStrip l).data ∧
            (pyRstripL (pyStrip l).data).getLast? = some '}'
        · rw [if_pos h5]
          exact ⟨_, rfl, by simp⟩
        · rw [if_neg h5]
          exact ⟨[], by simp, by simp⟩
      · rw [if_neg h4]
        exact ⟨[], by simp, by simp⟩

theorem foldl_segStep_entries_prefix (ls : List String) (st : SegState) :
    st.entries <+: (ls.foldl segStep st).entries := by
  induction ls generalizing st with
  | nil => exact List.prefix_refl _
  | cons l ls ih =>
    rw [List.foldl_cons]
    obtain ⟨t, ht, _⟩ := segStep_entries st l
    exact List.IsPrefix.trans ⟨t, ht.symm⟩ (ih (segStep st l))

theorem foldl_segStep_entries_length (ls : List String) (st : SegState) :
    (ls.foldl segStep st).entries.length ≤ st.entries.length + ls.length := by
  induction ls generalizing st with
  | nil => simp
  | cons l ls ih =>
    rw [List.foldl_cons]
    have h1 := ih (segStep st l)
    obtain ⟨t, ht, hlen⟩ := segStep_entries st l
    rw [ht] at h1
    simp only [List.length_append] at h1
    simp only [List.length_cons]
    omega

theorem rstrip_comma_id {cs : List Char} (h : cs.getLast? ≠ some ',') :
    (cs.reverse.dropWhile (fun c => c == ',')).reverse = cs := by
  have hh : cs.reverse.dropWhile (fun c => c == ',') = cs.reverse := by
    apply dropWhile_head_false
    intro c hc
    have hg : cs.getLast? = some c := by rw [← List.head?_reverse]; exact hc
    have hne : c ≠ ',' := fun e => h (e ▸ hg)
    simp [hne]
  rw [hh, List.reverse_reverse]

theorem hasFourWindow_length {cs : List Char} (h : hasFourWindow cs) :
    4 ≤ cs.length := by
  obtain ⟨pre, w, post, he, hlen, _⟩ := h
  subst he
  simp only [List.length_append, hlen]
  omega

theorem hasFourWindow_cons {a b c d : Char} {rest : List Char}
    (hd : ¬(a.isDigit = true ∧ b.isDigit = true ∧ c.isDigit = true ∧
        d.isDigit = true)) :
    hasFourWindow (a :: b :: c :: d :: rest) ↔
      hasFourWindow (b :: c :: d :: rest) := by
  constructor
  · rintro ⟨pre, w, post, he, hlen, hdig⟩
    cases pre with
    | nil =>
      obtain ⟨w1, w2, w3, w4, hw⟩ := list_length_eq_four hlen
      subst hw
      simp only [List.nil_append, List.cons_append, List.cons.injEq] at he
      obtain ⟨h1, h2, h3, h4, -⟩ := he
      subst h1; subst h2; subst h3; subst h4
      simp only [List.all_cons, List.all_nil, Bool.and_true, Bool.and_eq_true] at hdig
      exact absurd ⟨hdig.1, hdig.2.1, hdig.2.2⟩ hd
    | cons x pre' =>
      simp only [List.cons_append, List.cons.injEq] at he
      exact ⟨pre', w, post, he.2, hlen, hdig⟩
  · rintro ⟨pre, w, post, he, hlen, hdig⟩
    exact ⟨a :: pre, w, post, by simp [he], hlen, hdig⟩

theorem findFourDigits_none_iff (cs : List Char) :
    findFourDigits cs = none ↔ ¬ hasFourWindow cs := by
  induction cs with
  | nil =>
    simp only [findFourDigits, true_iff]
    intro hw
    have := hasFourWindow_length hw
    simp at this
  | cons a rest ih =>
    rcases rest with _ | ⟨b, _ | ⟨c, _ | ⟨d, rest'⟩⟩⟩
    · simp only [findFourDigits, true_iff]
      intro hw
      have := hasFourWindow_length hw
      simp at this
    · simp only [findFourDigits, true_iff]
      intro hw
      have := hasFourWindow_length hw
      simp at this
    · simp only [findFourDigits, true_iff]
      intro hw
      have := hasFourWindow_length hw
      simp at this
    · by_cases hd : a.isDigit = true ∧ b.isDigit = true ∧ c.isDigit = true ∧
          d.isDigit = true
      · constructor
        · intro h
          rw [findFourDigits, if_pos hd] at h
          exact absurd h (by simp)
        · intro h
          exact absurd ⟨[], [a, b, c, d], rest', rfl, rfl, by
            simp [hd.1, hd.2.1, hd.2.2.1, hd.2.2.2]⟩ h
      · rw [findFourDigits, if_neg hd, ih, hasFourWindow_cons hd]

theorem findFourDigits_some_shape (cs : List Char) :
    ∀ w, findFourDigits cs = some w → w.length = 4 ∧ w.all Char.isDigit = true := by
  induction cs with
  | nil => intro w h; exact absurd h (by simp [findFourDigits])
  | cons a rest ih =>
    rcases rest with _ | ⟨b, _ | ⟨c, _ | ⟨d, rest'⟩⟩⟩
    · intro w h; exact absurd h (by simp [findFourDigits])
    · intro w h; exact absurd h (by simp [findFourDigits])
    · intro w h; exact absurd h (by simp [findFourDigits])
    · intro w h
      by_cases hd : a.isDigit = true ∧ b.isDigit = true ∧ c.isDigit = true ∧
          d.isDigit = true
      · rw [findFourDigits, if_pos hd] at h
        obtain rfl : [a, b, c, d] = w := by simpa using h
        exact ⟨rfl, by simp [hd.1, hd.2.1, hd.2.2.1, hd.2.2.2]⟩
      · rw [findFourDigits, if_neg hd] at h
        exact ih w h


/-! ## Claims -/

set_option maxRecDepth 10000

/-- C1: the claim states that for every valid single-line entry
`@TYPE{key, field=value, ...}` the segmenter produces exactly one entry whose
record carries the lowercased type, the key, and every `field=value` pair in
its fields mapping.  The code disagrees: the immediate-close path of
`parse_bibtex_file` appends the entry without ever calling
`parse_entry_fields`, so a single-line entry is emitted with an empty fields
mapping (first conjunct); moreover even `parse_entry_fields` itself would not
recover every field on this line, because the lookahead of its field regex
does not accept the comma before the next field name, merging both fields
into one value (second conjunct).  This theorem evaluates the code at the
failing input. -/
theorem c1_single_line_entry_fields_empty :
    parseBibtexLines ["@article\x7bk1, author = \x7bA\x7d, year = \x7b1999\x7d\x7d"] =
      [⟨"article", "k1", []⟩] ∧
    parseEntryFields ("@article\x7bk1, author = \x7bA\x7d, year = \x7b1999\x7d\x7d") =
      [("author", "A\x7d, year = \x7b1999")] := by
  decide

/-- C2, counterexample: the claim says that while inside a multi-line entry,
the entry closes exactly at the first subsequent line that contains `}`, has
non-positive per-line brace balance, and ends with `}` after trimming; the
comment line `%}` satisfies all three conditions, yet the segmenter skips it
(comment filter) and the entry never closes: segmenting the two lines yields
no entry at all. -/
theorem c2_comment_close_line_ignored :
    (("%\x7d").data.contains '}' = true ∧
     ("%\x7d").data.count '{' ≤ ("%\x7d").data.count '}' ∧
     (pyRstripL ("%\x7d").data).getLast? = some '}') ∧
    parseBibtexLines ["@article\x7bk1,", "%\x7d"] = [] := by
  decide

/-- C2, amended: while inside a multi-line entry, blank lines and comment
lines (first character `%` after stripping) are skipped entirely — they are
neither accumulated nor able to close the entry; every other line is
processed, and the entry closes exactly when that line contains a closing
brace, its per-line brace balance (opening minus closing) is non-positive,
and it ends with a closing brace after trimming trailing whitespace;
otherwise the line is accumulated into the same entry. -/
theorem c2_multiline_close_condition (st : SegState) (l : String)
    (h : st.inEntry = true) :
    ((pyStrip l = "" ∨ (pyStrip l).data.head? = some '%') → segStep st l = st) ∧
    (¬(pyStrip l = "" ∨ (pyStrip l).data.head? = some '%') →
      (((segStep st l).inEntry = false) ↔
        ((pyStrip l).data.contains '}' = true ∧
         (pyStrip l).data.count '{' ≤ (pyStrip l).data.count '}' ∧
         (pyRstripL (pyStrip l).data).getLast? = some '}')) ∧
      (¬((pyStrip l).data.contains '}' = true ∧
         (pyStrip l).data.count '{' ≤ (pyStrip l).data.count '}' ∧
         (pyRstripL (pyStrip l).data).getLast? = some '}') →
        segStep st l = { st with content := st.content ++ [pyStrip l] })) := by
  constructor
  · intro hs
    simp only [segStep]
    rw [if_pos hs]
  · intro hs
    have h2 : ¬(st.inEntry = false ∧ (pyStrip l).data.contains '@' = true) := by
      simp [h]
    by_cases hc : (pyStrip l).data.contains '}' = true ∧
        (pyStrip l).data.count '{' ≤ (pyStrip l).data.count '}' ∧
        (pyRstripL (pyStrip l).data).getLast? = some '}'
    · refine ⟨?_, fun hcn => absurd hc hcn⟩
      simp only [segStep]
      rw [if_neg hs, if_neg h2, if_pos h, if_pos hc]
      exact iff_of_true rfl hc
    · refine ⟨?_, ?_⟩
      · simp only [segStep]
        rw [if_neg hs, if_neg h2, if_pos h, if_neg hc]
        exact iff_of_false (by simp [h]) hc
      · intro _
        simp only [segStep]
        rw [if_neg hs, if_neg h2, if_pos h, if_neg hc]

/-- C2, witness: inside an entry, the line `author = {A},` (which contains a
closing brace but does not end with one) is accumulated without closing the
entry. -/
theorem c2_multiline_close_condition_witness :
    segStep ⟨[], "article", "k1", ["@article\x7bk1,"], true⟩ ("author = \x7bA\x7d,") =
      { (⟨[], "article", "k1", ["@article\x7bk1,"], true⟩ : SegState) with
        content := (⟨[], "article", "k1", ["@article\x7bk1,"], true⟩ : SegState).content ++
          [pyStrip ("author = \x7bA\x7d,")] } :=
  ((c2_multiline_close_condition ⟨[], "article", "k1", ["@article\x7bk1,"], true⟩
      ("author = \x7bA\x7d,") rfl).2 (by decide)).2 (by decide)

/-- C3, counterexample: the claim's example says a booktitle value
`Proceedings of the International Conference on Foo` normalizes to
`International Conference on Foo`; the code only strips `proceedings of` from
conference names (the additional `the` strip is applied to journals alone),
so the result keeps the leading `the`. -/
theorem c3_conference_keeps_leading_the :
    extractVenueInfo
        ⟨"inproceedings", "k1",
          [("booktitle", "Proceedings of the International Conference on Foo")]⟩ =
      ("", "the International Conference on Foo") ∧
    ("the International Conference on Foo" : String) ≠
      "International Conference on Foo" := by
  decide

/-- C3, amended: venue normalization strips a leading case-insensitive
`proceedings of` phrase (with trailing whitespace) from both journal and
conference names, and additionally strips a leading case-insensitive `the `
from journal names only; in particular the journal `The Journal of Bar`
normalizes to `Journal of Bar`, while the booktitle
`Proceedings of the International Conference on Foo` normalizes to
`the International Conference on Foo`, retaining the `the`. -/
theorem c3_venue_prefix_stripping :
    (∀ r : String, stripProcL (("Proceedings of ").data ++ r.data) =
      r.data.dropWhile isSpacePy) ∧
    (∀ r : String, stripTheL (("The ").data ++ r.data) =
      r.data.dropWhile isSpacePy) ∧
    (∀ r : List Char, stripProcL ('t' :: 'h' :: 'e' :: ' ' :: r) =
      't' :: 'h' :: 'e' :: ' ' :: r) ∧
    extractVenueInfo ⟨"article", "k1", [("journal", "The Journal of Bar")]⟩ =
      ("Journal of Bar", "") ∧
    extractVenueInfo
        ⟨"inproceedings", "k2",
          [("booktitle", "Proceedings of the International Conference on Foo")]⟩ =
      ("", "the International Conference on Foo") :=
  ⟨fun _ => rfl, fun _ => rfl, fun _ => rfl, by decide, by decide⟩

/-- C4, counterexample: the claim says the year label is the first run of
exactly four decimal digits, and that an entry whose year value has no such
run contributes nothing; the value `12345` has a single five-digit run (no
run of exactly four digits), yet the code counts the year `1234`, because
`\d{4}` matches the first four digits inside the longer run. -/
theorem c4_longer_digit_run_still_counted :
    hasExactFourDigitRun (("12345").data) = false ∧
    (calculateStatistics [⟨"article", "k3", [("year", "12345")]⟩]).years =
      [("1234", 1)] := by
  decide

/-- C4, amended: year extraction finds the first position at which four
consecutive decimal digits occur and uses those four digits as the label
(even inside a longer digit run); an entry contributes nothing exactly when
its year value contains no four consecutive digits.  In particular `2020.`
yields label `2020` and `in press` yields no contribution. -/
theorem c4_first_four_consecutive_digits :
    (∀ cs : List Char, findFourDigits cs = none ↔ ¬ hasFourWindow cs) ∧
    (∀ cs w, findFourDigits cs = some w →
      w.length = 4 ∧ w.all Char.isDigit = true) ∧
    (calculateStatistics [⟨"article", "k1", [("year", "2020.")]⟩]).years =
      [("2020", 1)] ∧
    (calculateStatistics [⟨"article", "k2", [("year", "in press")]⟩]).years = [] :=
  ⟨findFourDigits_none_iff, fun cs => findFourDigits_some_shape cs, by decide, by decide⟩

/-- C4, witness: the implication of the amended claim applied at the year
value `2020.`, whose extracted label `2020` has exactly four digit
characters. -/
theorem c4_first_four_consecutive_digits_witness :
    findFourDigits (("2020.").data) = some (("2020").data) ∧
    (("2020").data.length = 4 ∧ ("2020").data.all Char.isDigit = true) :=
  ⟨by decide,
    c4_first_four_consecutive_digits.2.1 (("2020.").data) (("2020").data) (by decide)⟩

/-- C5, counterexample: the claim says the key is the sentinel `unknown` when
no comma is found on the start line; the start line `@misc{foo}` has no comma,
yet the produced entry's key is `foo}` — everything after the opening brace to
the end of the line — not `unknown`. -/
theorem c5_no_comma_key_not_unknown :
    ("@misc\x7bfoo\x7d").data.contains ',' = false ∧
    parseBibtexLines ["@misc\x7bfoo\x7d"] = [⟨"misc", "foo\x7d", []⟩] ∧
    ("foo\x7d" : String) ≠ "unknown" := by
  decide

/-- C5, amended: the key is the run of non-comma characters immediately
following the first opening brace that is followed by a non-comma character,
extending to the first comma after it or, when there is no such comma, to the
end of the line; the sentinel `unknown` arises only when no opening brace is
followed by a non-comma character (for example when the opening brace ends
the line). -/
theorem c5_key_after_first_brace (a b t : List Char) (ha : '{' ∉ a)
    (hb : b ≠ []) (hb2 : ',' ∉ b) (ht : t = [] ∨ t.head? = some ',') :
    extractKeyL (a ++ '{' :: (b ++ t)) = some b ∧
    extractKeyL (a ++ ['{']) = none :=
  ⟨extractKeyL_brace a b t ha hb hb2 ht, extractKeyL_trailing_brace a ha⟩

/-- C5, witness: on the start line `@misc{k1,x` the captured key is `k1`, and
a line ending right at the opening brace gives no capture (hence `unknown`). -/
theorem c5_key_after_first_brace_witness :
    extractKeyL (("@misc").data ++ '{' :: (("k1").data ++ (",x").data)) =
      some (("k1").data) ∧
    extractKeyL (("@misc").data ++ ['{']) = none :=
  c5_key_after_first_brace (("@misc").data) (("k1").data) ((",x").data)
    (by decide) (by decide) (by decide) (Or.inr (by decide))

/-- C6: parsing is total and degrades gracefully — the entries produced from
a line sequence are preserved (as a prefix) under appending arbitrary further
lines, at most one entry is produced per input line, and an unterminated
final entry (opening brace never closed before end of input) yields zero
entries rather than an error. -/
theorem c6_parsing_total_and_graceful :
    (∀ xs ys : List String, parseBibtexLines xs <+: parseBibtexLines (xs ++ ys)) ∧
    (∀ xs : List String, (parseBibtexLines xs).length ≤ xs.length) ∧
    parseBibtexLines ["@article\x7bk1,", "author = \x7bA\x7d,"] = [] := by
  refine ⟨?_, ?_, by decide⟩
  · intro xs ys
    unfold parseBibtexLines
    rw [List.foldl_append]
    exact foldl_segStep_entries_prefix ys _
  · intro xs
    have h := foldl_segStep_entries_length xs initSegState
    simpa [parseBibtexLines, initSegState] using h

/-- C7: for every sequence of parsed entries, the `total_entries` count of
the statistics value equals the sum over all labels of the counts in its
`entry_types` table. -/
theorem c7_total_entries_eq_type_counts (es : List Entry) :
    (calculateStatistics es).total_entries =
      counterTotal (calculateStatistics es).entry_types := by
  unfold calculateStatistics
  rw [foldl_statsStep_total, foldl_statsStep_types_total]
  simp [counterTotal]

/-- C8: field-value normalization is idempotent on already-normalized
values — for every string that is trimmed (a fixed point of `strip`), does
not end with a comma, and is not wrapped in matching braces or matching
quotes, the cleanup of `parse_entry_fields` returns it unchanged. -/
theorem c8_value_normalization_idempotent (v : String) (h1 : pyStrip v = v)
    (h2 : ¬(v.data.head? = some '{' ∧ v.data.getLast? = some '}'))
    (h3 : ¬(v.data.head? = some '"' ∧ v.data.getLast? = some '"'))
    (h4 : v.data.getLast? ≠ some ',') :
    cleanFieldValue v = v := by
  have hd : pyStripL v.data = v.data := by
    have hx := congrArg String.data h1
    simpa [pyStrip] using hx
  show String.mk (cleanFieldValueL v.data) = v
  unfold cleanFieldValueL unwrapDelim
  rw [hd, if_neg h2, if_neg h3, rstrip_comma_id h4, hd, stringMk_data]

/-- C8, witness: the already-normalized value `Journal of Bar` is left
unchanged by the cleanup. -/
theorem c8_value_normalization_idempotent_witness :
    cleanFieldValue ("Journal of Bar") = "Journal of Bar" :=
  c8_value_normalization_idempotent ("Journal of Bar") (by decide) (by decide)
    (by decide) (by decide)

/-- C9: every label present in any of the five frequency tables of the
statistics value (entry types, authors, journals, conferences, years) has a
count of at least `1`; no zero-count label is ever stored. -/
theorem c9_counts_positive (es : List Entry) (k : String) (n : Nat)
    (h : (k, n) ∈ (calculateStatistics es).entry_types ∨
         (k, n) ∈ (calculateStatistics es).authors ∨
         (k, n) ∈ (calculateStatistics es).journals ∨
         (k, n) ∈ (calculateStatistics es).conferences ∨
         (k, n) ∈ (calculateStatistics es).years) :
    1 ≤ n := by
  obtain ⟨h1, h2, h3, h4, h5⟩ := calculateStatistics_pos es
  rcases h with h | h | h | h | h
  · exact h1 (k, n) h
  · exact h2 (k, n) h
  · exact h3 (k, n) h
  · exact h4 (k, n) h
  · exact h5 (k, n) h

/-- C9, witness: the type table of a one-entry run stores the label
`article` with the positive count `1`. -/
theorem c9_counts_positive_witness :
    ("article", 1) ∈ (calculateStatistics [⟨"article", "k1", []⟩]).entry_types ∧
    1 ≤ 1 :=
  ⟨by decide,
    c9_counts_positive [⟨"article", "k1", []⟩] ("article") 1 (Or.inl (by decide))⟩

/-- C10: the citation key is taken verbatim from the start line without
trimming — when the first opening brace is followed by non-comma characters
(including whitespace) before the first comma, exactly those characters are
the key; in particular the start line `@article{ k1 , author={A}}` yields the
key ` k1 ` with its surrounding spaces. -/
theorem c10_key_taken_verbatim (a b t : List Char) (ha : '{' ∉ a)
    (hb : b ≠ []) (hb2 : ',' ∉ b) (ht : t.head? = some ',') :
    extractKeyL (a ++ '{' :: (b ++ t)) = some b ∧
    parseBibtexLines ["@article\x7b k1 , author=\x7bA\x7d\x7d"] =
      [⟨"article", " k1 ", []⟩] :=
  ⟨extractKeyL_brace a b t ha hb hb2 (Or.inr ht), by decide⟩

/-- C10, witness: the start line `@article{ k1 , author={A}}` keeps the
spaces around `k1` in the captured key. -/
theorem c10_key_taken_verbatim_witness :
    extractKeyL (("@article").data ++ '{' :: ((" k1 ").data ++ (", author=\x7bA\x7d\x7d").data)) =
      some ((" k1 ").data) ∧
    parseBibtexLines ["@article\x7b k1 , author=\x7bA\x7d\x7d"] =
      [⟨"article", " k1 ", []⟩] :=
  c10_key_taken_verbatim (("@article").data) ((" k1 ").data)
    ((", author=\x7bA\x7d\x7d").data) (by decide) (by decide) (by decide) (by decide)
